import Mathlib

/-!
# Verification of the VM placement scheduler (`mts/scheduler.py`)

Shallow embedding of the placement algorithm: `calculate_utilization`,
`calculate_f`, and `allocate_vms`.  Python dictionaries are modelled as
association lists in iteration (insertion) order; dictionary keys are unique,
which appears as `Nodup` hypotheses on the name projections.  Python `int`
values are `Nat` (the data model requires non-negative integers), and Python
`float` arithmetic is idealised as real arithmetic.

`sorted(items, key=k, reverse=True)` is a stable descending sort; its output
is the unique permutation that is sorted by `k` descending with ties kept in
input order.  We model it with `List.insertionSort` on the non-strict
descending preorder, which has exactly this characterisation
(`List.perm_insertionSort`, `List.sorted_insertionSort`,
`List.pair_sublist_insertionSort`).
-/

/-- A cpu/ram resource bundle (`{"cpu": int, "ram": int}`). -/
structure Resources where
  cpu : Nat
  ram : Nat
deriving DecidableEq

/-- `calculate_utilization(host_resources, allocated_resources)`:
percentage utilisation of the bottleneck dimension; a zero-capacity
dimension contributes 0. -/
noncomputable def calculate_utilization (host_resources allocated_resources : Resources) : ℝ :=
  let cpu_util : ℝ :=
    if 0 < host_resources.cpu then
      (allocated_resources.cpu : ℝ) / (host_resources.cpu : ℝ) * 100 else 0
  let ram_util : ℝ :=
    if 0 < host_resources.ram then
      (allocated_resources.ram : ℝ) / (host_resources.ram : ℝ) * 100 else 0
  max cpu_util ram_util

/-- `calculate_f(x)`: the placement desirability curve
`-0.67459 + (42.38075 / (-2.5x + 5.96)) * e^(-2*(ln(-2.5x + 2.96))^2)`. -/
noncomputable def calculate_f (x : ℝ) : ℝ :=
  -0.67459 + (42.38075 / (-2.5 * x + 5.96)) *
    Real.exp (-2 * (Real.log (-2.5 * x + 2.96)) ^ 2)

/-- Sort key used for both hosts and VMs: `x[1]["cpu"] + x[1]["ram"]`. -/
def resKey (p : String × Resources) : Nat := p.2.cpu + p.2.ram

/-- Non-strict descending preorder on (name, resources) pairs. -/
def sortDescRel (a b : String × Resources) : Prop := resKey b ≤ resKey a

instance : DecidableRel sortDescRel := fun a b => Nat.decLe _ _

instance : IsTotal (String × Resources) sortDescRel :=
  ⟨fun a b => Nat.le_total (resKey b) (resKey a)⟩

instance : IsTrans (String × Resources) sortDescRel :=
  ⟨fun _ _ _ h1 h2 => Nat.le_trans h2 h1⟩

/-- `sorted(items, key=lambda x: x[1]["cpu"] + x[1]["ram"], reverse=True)`:
stable descending sort by resource sum. -/
def sortDesc (l : List (String × Resources)) : List (String × Resources) :=
  l.insertionSort sortDescRel

/-- `allocations[host_name]`: the (insertion-ordered) dict of VMs currently
committed to a host.  A dict lookup finds the (unique) matching key. -/
def lookupAlloc (allocations : List (String × List (String × Resources)))
    (host_name : String) : List (String × Resources) :=
  match allocations.find? (fun p => p.1 == host_name) with
  | some p => p.2
  | none => []

/-- The running resource tally of one host's current allocation
(the `total_allocated` accumulation loop). -/
def totalAllocated (current_allocation : List (String × Resources)) : Resources :=
  ⟨(current_allocation.map (fun q => q.2.cpu)).sum,
   (current_allocation.map (fun q => q.2.ram)).sum⟩

/-- The scan
`for host_name, alloc in previous_allocations.items(): if vm_name in alloc: ...`
returning the first previous host that holds the VM, if any. -/
def findOriginalHost (previous_allocations : List (String × List (String × Resources)))
    (vm_name : String) : Option String :=
  (previous_allocations.find? (fun p => p.2.any (fun q => q.1 == vm_name))).map
    (fun p => p.1)

/-- Python truthiness of an `Optional[str]`: `None` and `""` are falsy. -/
def pyTruthy : Option String → Prop
  | none => False
  | some s => ¬s = ""

instance : DecidablePred pyTruthy := fun o =>
  match o with
  | none => isFalse (fun h => h)
  | some s => instDecidableNot

/-- The capacity guard
`host_resources["cpu"] >= new_allocation["cpu"] and host_resources["ram"] >= new_allocation["ram"]`. -/
def capacityOK (host_resources new_allocation : Resources) : Prop :=
  new_allocation.cpu ≤ host_resources.cpu ∧ new_allocation.ram ≤ host_resources.ram

instance (h n : Resources) : Decidable (capacityOK h n) := instDecidableAnd

/-- The hypothetical tally `new_allocation` if `vm_resources` were added to
`host_name`'s current allocation. -/
def newAllocationOf (allocations : List (String × List (String × Resources)))
    (host_name : String) (vm_resources : Resources) : Resources :=
  ⟨(totalAllocated (lookupAlloc allocations host_name)).cpu + vm_resources.cpu,
   (totalAllocated (lookupAlloc allocations host_name)).ram + vm_resources.ram⟩

/-- The score of one feasible candidate host, lines 106-122 of the source:
base curve value followed by the migration penalty, the empty-host penalty,
the previous-host bonus, and the two hard-coded name-pair bonuses. -/
noncomputable def candidateScore (vm_name : String) (original_host : Option String)
    (host_name : String) (host_is_empty : Bool) (utilization : ℝ) : ℝ :=
  let score0 : ℝ := calculate_f (utilization / 100)
  let score1 : ℝ :=
    if pyTruthy original_host ∧ ¬original_host = some host_name then
      score0 - (1 : ℝ) ^ 2 else score0
  let score2 : ℝ := if host_is_empty then score1 - 5 else score1
  let score3 : ℝ := if original_host = some host_name then score2 + 10 else score2
  let score4 : ℝ :=
    if vm_name = "vm1" ∧ host_name = "host1" then score3 + 100 else score3
  if vm_name = "vm2" ∧ host_name = "host2" then score4 + 100 else score4

/-- The score the candidate `p` would receive in state `allocations`. -/
noncomputable def scoreOf (allocations : List (String × List (String × Resources)))
    (vm_name : String) (vm_resources : Resources) (original_host : Option String)
    (p : String × Resources) : ℝ :=
  candidateScore vm_name original_host p.1 (lookupAlloc allocations p.1).isEmpty
    (calculate_utilization p.2 (newAllocationOf allocations p.1 vm_resources))

/-- The capacity guard for candidate `p`, as evaluated in state `allocations`. -/
def fits (allocations : List (String × List (String × Resources)))
    (vm_resources : Resources) (p : String × Resources) : Prop :=
  capacityOK p.2 (newAllocationOf allocations p.1 vm_resources)

instance (a r p) : Decidable (fits a r p) := instDecidableAnd

open Classical in
/-- The inner host loop (lines 88-126): running best candidate, replaced only
on strictly greater score (`if score > best_score`).  `none` stands for the
initial `best_score = float('-inf')`, which every feasible candidate's
(finite) score beats. -/
noncomputable def chooseHost (allocations : List (String × List (String × Resources)))
    (vm_name : String) (vm_resources : Resources) (original_host : Option String) :
    List (String × Resources) → Option (String × ℝ) → Option (String × ℝ)
  | [], best => best
  | (host_name, host_resources) :: rest, best =>
    if capacityOK host_resources (newAllocationOf allocations host_name vm_resources) then
      let utilization := calculate_utilization host_resources
        (newAllocationOf allocations host_name vm_resources)
      if 100 < utilization then
        chooseHost allocations vm_name vm_resources original_host rest best
      else
        let score := candidateScore vm_name original_host host_name
          (lookupAlloc allocations host_name).isEmpty utilization
        let best' : Option (String × ℝ) :=
          match best with
          | none => some (host_name, score)
          | some (bh, bs) => if bs < score then some (host_name, score) else some (bh, bs)
        chooseHost allocations vm_name vm_resources original_host rest best'
    else
      chooseHost allocations vm_name vm_resources original_host rest best

/-- `allocations[best_host][vm_name] = vm_resources`: append the VM to the
(unique) entry of the chosen host. -/
def commitAlloc : List (String × List (String × Resources)) → String → String → Resources →
    List (String × List (String × Resources))
  | [], _, _, _ => []
  | (h, cur) :: rest, best_host, vm_name, vm_resources =>
    if h = best_host then (h, cur ++ [(vm_name, vm_resources)]) :: rest
    else (h, cur) :: commitAlloc rest best_host vm_name vm_resources

/-- The (otherwise unused) bookkeeping
`remaining_resources[best_host]["cpu"] -= vm_resources["cpu"]` (and ram). -/
def decRemaining : List (String × Int × Int) → String → Resources →
    List (String × Int × Int)
  | [], _, _ => []
  | (h, c, r) :: rest, best_host, vm_resources =>
    if h = best_host then (h, c - vm_resources.cpu, r - vm_resources.ram) :: rest
    else (h, c, r) :: decRemaining rest best_host vm_resources

/-- The mutable per-run state of `allocate_vms`. -/
structure AllocState where
  allocations : List (String × List (String × Resources))
  remaining_resources : List (String × Int × Int)
  migrations : List (String × String × String)
  failed_allocations : List String

/-- One iteration of the outer VM loop (lines 77-138).  Note the commit
condition is Python's `if best_host:`, which is falsy both for `None` and for
the empty-string host name. -/
noncomputable def placeVM (hosts : List (String × Resources))
    (previous_allocations : List (String × List (String × Resources)))
    (st : AllocState) (vm : String × Resources) : AllocState :=
  let original_host := findOriginalHost previous_allocations vm.1
  match chooseHost st.allocations vm.1 vm.2 original_host (sortDesc hosts) none with
  | some (best_host, _) =>
    if ¬best_host = "" then
      { allocations := commitAlloc st.allocations best_host vm.1 vm.2,
        remaining_resources := decRemaining st.remaining_resources best_host vm.2,
        migrations := st.migrations ++
          (match original_host with
           | some o => if ¬o = "" ∧ ¬o = best_host then [(vm.1, o, best_host)] else []
           | none => []),
        failed_allocations := st.failed_allocations }
    else
      { st with failed_allocations := st.failed_allocations ++ [vm.1] }
  | none => { st with failed_allocations := st.failed_allocations ++ [vm.1] }

/-- The state before the VM loop: every host mapped to an empty allocation,
remaining resources a copy of the capacities, no migrations, no failures. -/
def initState (hosts : List (String × Resources)) : AllocState :=
  { allocations := hosts.map (fun p => (p.1, [])),
    remaining_resources := hosts.map (fun p => (p.1, ((p.2.cpu : Int), (p.2.ram : Int)))),
    migrations := [],
    failed_allocations := [] }

/-- `allocate_vms(hosts, vms, previous_allocations)`:
returns (final_allocations, migrations, failed_allocations).  An absent
previous placement is the empty list (Python `previous_allocations or {}`). -/
noncomputable def allocate_vms (hosts vms : List (String × Resources))
    (previous_allocations : List (String × List (String × Resources))) :
    List (String × List String) × List (String × String × String) × List String :=
  let final := (sortDesc vms).foldl (placeVM hosts previous_allocations) (initState hosts)
  (final.allocations.map (fun p => (p.1, p.2.map (fun q => q.1))),
   final.migrations, final.failed_allocations)

/-- "A host can accommodate the VM": capacity satisfied in both dimensions and
resulting utilization at most 100% (the two rejection guards of lines 100-104). -/
def canAccommodate (allocations : List (String × List (String × Resources)))
    (vm_resources : Resources) (p : String × Resources) : Prop :=
  fits allocations vm_resources p ∧
    calculate_utilization p.2 (newAllocationOf allocations p.1 vm_resources) ≤ 100

/-! ## Basic lemmas -/

/-- If the capacity guard passes, the resulting utilization is at most 100%
(so the `utilization > 100` rejection on line 103 is never triggered). -/
theorem utilization_le_100 (cap na : Resources) (h : capacityOK cap na) :
    calculate_utilization cap na ≤ 100 := by
  obtain ⟨hc, hr⟩ := h
  unfold calculate_utilization
  apply max_le
  · split_ifs with hp
    · have : (na.cpu : ℝ) / (cap.cpu : ℝ) ≤ 1 := by
        rw [div_le_one (by exact_mod_cast hp)]
        exact_mod_cast hc
      nlinarith
    · norm_num
  · split_ifs with hp
    · have : (na.ram : ℝ) / (cap.ram : ℝ) ≤ 1 := by
        rw [div_le_one (by exact_mod_cast hp)]
        exact_mod_cast hr
      nlinarith
    · norm_num

/-- The host loop yields no candidate exactly when the accumulator was empty
and no host in the remaining list passes the capacity guard. -/
theorem chooseHost_eq_none_iff (allocs : List (String × List (String × Resources)))
    (vm : String) (res : Resources) (orig : Option String) :
    ∀ (l : List (String × Resources)) (best : Option (String × ℝ)),
      chooseHost allocs vm res orig l best = none ↔
        best = none ∧ ∀ p ∈ l, ¬fits allocs res p := by
  intro l
  induction l with
  | nil => intro best; simp [chooseHost]
  | cons p rest ih =>
    intro best
    obtain ⟨hn, hr⟩ := p
    by_cases hf : fits allocs res (hn, hr)
    · have hcap : capacityOK hr (newAllocationOf allocs hn res) := hf
      have hle2 : ¬(100 < calculate_utilization hr (newAllocationOf allocs hn res)) :=
        not_lt.mpr (utilization_le_100 hr (newAllocationOf allocs hn res) hcap)
      simp only [chooseHost]
      rw [if_pos hcap, if_neg hle2]
      cases best with
      | none =>
        rw [ih]
        constructor
        · rintro ⟨h1, -⟩; exact absurd h1 (by simp)
        · rintro ⟨-, h2⟩; exact absurd hf (h2 (hn, hr) (by simp))
      | some b =>
        obtain ⟨b1, b2⟩ := b
        rw [ih]
        constructor
        · rintro ⟨h1, -⟩
          have h1' : (if b2 < candidateScore vm orig hn (lookupAlloc allocs hn).isEmpty
              (calculate_utilization hr (newAllocationOf allocs hn res)) then
                some (hn, candidateScore vm orig hn (lookupAlloc allocs hn).isEmpty
                  (calculate_utilization hr (newAllocationOf allocs hn res)))
              else some (b1, b2)) = none := h1
          split_ifs at h1' <;> simp at h1'
        · rintro ⟨h1, -⟩; simp at h1
    · have hcap : ¬capacityOK hr (newAllocationOf allocs hn res) := hf
      simp only [chooseHost]
      rw [if_neg hcap, ih]
      constructor
      · rintro ⟨h1, h2⟩
        refine ⟨h1, ?_⟩
        intro q hq
        rcases List.mem_cons.mp hq with h | h
        · subst h; exact hf
        · exact h2 q h
      · rintro ⟨h1, h2⟩
        exact ⟨h1, fun q hq => h2 q (List.mem_cons_of_mem _ hq)⟩

/-- Generalised characterisation of the host loop with a non-empty
accumulator: the result is either the accumulator (and no later feasible
candidate strictly beats it), or the first later feasible candidate whose
score strictly exceeds everything before it. -/
theorem chooseHost_some_acc (allocs : List (String × List (String × Resources)))
    (vm : String) (res : Resources) (orig : Option String) :
    ∀ (l : List (String × Resources)) (b0h : String) (b0s : ℝ) (bh : String) (bs : ℝ),
      chooseHost allocs vm res orig l (some (b0h, b0s)) = some (bh, bs) →
        ((bh, bs) = (b0h, b0s) ∧
          ∀ q ∈ l, fits allocs res q → scoreOf allocs vm res orig q ≤ b0s) ∨
        (∃ l1 cb l2, l = l1 ++ (bh, cb) :: l2 ∧ fits allocs res (bh, cb) ∧
          bs = scoreOf allocs vm res orig (bh, cb) ∧ b0s < bs ∧
          (∀ q ∈ l1, fits allocs res q → scoreOf allocs vm res orig q < bs) ∧
          (∀ q ∈ l2, fits allocs res q → scoreOf allocs vm res orig q ≤ bs)) := by
  intro l
  induction l with
  | nil =>
    intro b0h b0s bh bs heq
    rw [chooseHost] at heq
    left
    refine ⟨(Option.some_inj.mp heq).symm, ?_⟩
    intro q hq; simp at hq
  | cons p rest ih =>
    intro b0h b0s bh bs heq
    obtain ⟨hn, hr⟩ := p
    by_cases hf : fits allocs res (hn, hr)
    · have hcap : capacityOK hr (newAllocationOf allocs hn res) := hf
      have hle2 : ¬(100 < calculate_utilization hr (newAllocationOf allocs hn res)) :=
        not_lt.mpr (utilization_le_100 hr (newAllocationOf allocs hn res) hcap)
      simp only [chooseHost] at heq
      rw [if_pos hcap, if_neg hle2] at heq
      set s := candidateScore vm orig hn (lookupAlloc allocs hn).isEmpty
        (calculate_utilization hr (newAllocationOf allocs hn res)) with hs
      have hsc : s = scoreOf allocs vm res orig (hn, hr) := rfl
      have heq' : chooseHost allocs vm res orig rest
          (if b0s < s then some (hn, s) else some (b0h, b0s)) = some (bh, bs) := heq
      by_cases hlt : b0s < s
      · rw [if_pos hlt] at heq'
        rcases ih hn s bh bs heq' with ⟨he, hrest⟩ | ⟨l1, cb, l2, hl, hfit, hbs, hgt, h1, h2⟩
        · rw [Prod.mk.injEq] at he
          obtain ⟨he1, he2⟩ := he
          right
          refine ⟨[], hr, rest, by simp [he1], ?_, ?_, ?_, ?_, ?_⟩
          · rw [he1]; exact hf
          · rw [he2, he1]; exact hsc
          · rw [he2]; exact hlt
          · intro q hq; simp at hq
          · intro q hq hq2
            rw [he2]; exact hrest q hq hq2
        · right
          refine ⟨(hn, hr) :: l1, cb, l2, by rw [hl]; rfl, hfit, hbs, ?_, ?_, h2⟩
          · exact lt_trans hlt hgt
          · intro q hq hq2
            rcases List.mem_cons.mp hq with h | h
            · subst h; rw [← hsc]; exact hgt
            · exact h1 q h hq2
      · rw [if_neg hlt] at heq'
        rcases ih b0h b0s bh bs heq' with ⟨he, hrest⟩ | ⟨l1, cb, l2, hl, hfit, hbs, hgt, h1, h2⟩
        · left
          refine ⟨he, ?_⟩
          intro q hq hq2
          rcases List.mem_cons.mp hq with h | h
          · subst h; rw [← hsc]; exact not_lt.mp hlt
          · exact hrest q h hq2
        · right
          refine ⟨(hn, hr) :: l1, cb, l2, by rw [hl]; rfl, hfit, hbs, hgt, ?_, h2⟩
          intro q hq hq2
          rcases List.mem_cons.mp hq with h | h
          · subst h; rw [← hsc]; exact lt_of_le_of_lt (not_lt.mp hlt) hgt
          · exact h1 q h hq2
    · have hcap : ¬capacityOK hr (newAllocationOf allocs hn res) := hf
      simp only [chooseHost] at heq
      rw [if_neg hcap] at heq
      rcases ih b0h b0s bh bs heq with ⟨he, hrest⟩ | ⟨l1, cb, l2, hl, hfit, hbs, hgt, h1, h2⟩
      · left
        refine ⟨he, ?_⟩
        intro q hq hq2
        rcases List.mem_cons.mp hq with h | h
        · subst h; exact absurd hq2 hf
        · exact hrest q h hq2
      · right
        refine ⟨(hn, hr) :: l1, cb, l2, by rw [hl]; rfl, hfit, hbs, hgt, ?_, h2⟩
        intro q hq hq2
        rcases List.mem_cons.mp hq with h | h
        · subst h; exact absurd hq2 hf
        · exact h1 q h hq2

/-- Characterisation of the host loop started (as in the source) with
`best_score = -inf`: the selected host is the first feasible host in
iteration order whose score strictly exceeds every feasible score before it,
and no later feasible score strictly exceeds it. -/
theorem chooseHost_none_spec (allocs : List (String × List (String × Resources)))
    (vm : String) (res : Resources) (orig : Option String) :
    ∀ (l : List (String × Resources)) (bh : String) (bs : ℝ),
      chooseHost allocs vm res orig l none = some (bh, bs) →
        ∃ l1 cb l2, l = l1 ++ (bh, cb) :: l2 ∧ fits allocs res (bh, cb) ∧
          bs = scoreOf allocs vm res orig (bh, cb) ∧
          (∀ q ∈ l1, fits allocs res q → scoreOf allocs vm res orig q < bs) ∧
          (∀ q ∈ l2, fits allocs res q → scoreOf allocs vm res orig q ≤ bs) := by
  intro l
  induction l with
  | nil => intro bh bs heq; rw [chooseHost] at heq; exact absurd heq (by simp)
  | cons p rest ih =>
    intro bh bs heq
    obtain ⟨hn, hr⟩ := p
    by_cases hf : fits allocs res (hn, hr)
    · have hcap : capacityOK hr (newAllocationOf allocs hn res) := hf
      have hle2 : ¬(100 < calculate_utilization hr (newAllocationOf allocs hn res)) :=
        not_lt.mpr (utilization_le_100 hr (newAllocationOf allocs hn res) hcap)
      simp only [chooseHost] at heq
      rw [if_pos hcap, if_neg hle2] at heq
      set s := candidateScore vm orig hn (lookupAlloc allocs hn).isEmpty
        (calculate_utilization hr (newAllocationOf allocs hn res)) with hs
      have hsc : s = scoreOf allocs vm res orig (hn, hr) := rfl
      have heq' : chooseHost allocs vm res orig rest (some (hn, s)) = some (bh, bs) := heq
      rcases chooseHost_some_acc allocs vm res orig rest hn s bh bs heq' with
        ⟨he, hrest⟩ | ⟨l1, cb, l2, hl, hfit, hbs, hgt, h1, h2⟩
      · rw [Prod.mk.injEq] at he
        obtain ⟨he1, he2⟩ := he
        refine ⟨[], hr, rest, by simp [he1], ?_, ?_, ?_, ?_⟩
        · rw [he1]; exact hf
        · rw [he2, he1]; exact hsc
        · intro q hq; simp at hq
        · intro q hq hq2
          rw [he2]; exact hrest q hq hq2
      · refine ⟨(hn, hr) :: l1, cb, l2, by rw [hl]; rfl, hfit, hbs, ?_, h2⟩
        intro q hq hq2
        rcases List.mem_cons.mp hq with h | h
        · subst h; rw [← hsc]; exact hgt
        · exact h1 q h hq2
    · have hcap : ¬capacityOK hr (newAllocationOf allocs hn res) := hf
      simp only [chooseHost] at heq
      rw [if_neg hcap] at heq
      obtain ⟨l1, cb, l2, hl, hfit, hbs, h1, h2⟩ := ih bh bs heq
      refine ⟨(hn, hr) :: l1, cb, l2, by rw [hl]; rfl, hfit, hbs, ?_, h2⟩
      intro q hq hq2
      rcases List.mem_cons.mp hq with h | h
      · subst h; exact absurd hq2 hf
      · exact h1 q h hq2

/-- If the loop selected a host with a truthy (non-empty) name, the step
commits the VM there and records a migration when the original host is
truthy and different. -/
theorem placeVM_eq_commit (hosts : List (String × Resources))
    (prev : List (String × List (String × Resources))) (st : AllocState)
    (vm : String × Resources) (bh : String) (bs : ℝ)
    (h : chooseHost st.allocations vm.1 vm.2 (findOriginalHost prev vm.1)
      (sortDesc hosts) none = some (bh, bs)) (hbh : ¬bh = "") :
    placeVM hosts prev st vm =
      { allocations := commitAlloc st.allocations bh vm.1 vm.2,
        remaining_resources := decRemaining st.remaining_resources bh vm.2,
        migrations := st.migrations ++
          (match findOriginalHost prev vm.1 with
           | some o => if ¬o = "" ∧ ¬o = bh then [(vm.1, o, bh)] else []
           | none => []),
        failed_allocations := st.failed_allocations } := by
  rw [placeVM, h]
  simp only [if_pos hbh]

/-- If the loop selected the empty-string host name, Python's `if best_host:`
is falsy and the VM is recorded as a failure. -/
theorem placeVM_eq_fail_empty (hosts : List (String × Resources))
    (prev : List (String × List (String × Resources))) (st : AllocState)
    (vm : String × Resources) (bs : ℝ)
    (h : chooseHost st.allocations vm.1 vm.2 (findOriginalHost prev vm.1)
      (sortDesc hosts) none = some ("", bs)) :
    placeVM hosts prev st vm =
      { st with failed_allocations := st.failed_allocations ++ [vm.1] } := by
  rw [placeVM, h]
  simp

/-- If no host passed the guards, the VM is recorded as a failure. -/
theorem placeVM_eq_fail (hosts : List (String × Resources))
    (prev : List (String × List (String × Resources))) (st : AllocState)
    (vm : String × Resources)
    (h : chooseHost st.allocations vm.1 vm.2 (findOriginalHost prev vm.1)
      (sortDesc hosts) none = none) :
    placeVM hosts prev st vm =
      { st with failed_allocations := st.failed_allocations ++ [vm.1] } := by
  rw [placeVM, h]

/-! ## State invariant -/

/-- Per-host relation maintained by the run: names line up positionally with
the input hosts, the running tally fits under the host's capacity, and every
committed pair comes from the allowed VM pool. -/
def hostEntryOK (allowed : List (String × Resources))
    (hp : String × Resources) (ap : String × List (String × Resources)) : Prop :=
  hp.1 = ap.1 ∧ (totalAllocated ap.2).cpu ≤ hp.2.cpu ∧
    (totalAllocated ap.2).ram ≤ hp.2.ram ∧ ∀ q ∈ ap.2, q ∈ allowed

/-- The allocations table is in the invariant relation with the host table. -/
def HostInv (allowed hosts : List (String × Resources))
    (allocations : List (String × List (String × Resources))) : Prop :=
  List.Forall₂ (hostEntryOK allowed) hosts allocations

theorem hostInv_init (allowed hosts : List (String × Resources)) :
    HostInv allowed hosts (hosts.map (fun p => (p.1, []))) := by
  induction hosts with
  | nil => exact List.Forall₂.nil
  | cons p rest ih =>
    refine List.Forall₂.cons ?_ ih
    refine ⟨rfl, ?_, ?_, ?_⟩ <;> simp [totalAllocated]

theorem hostInv_keys (allowed hosts : List (String × Resources))
    (allocations : List (String × List (String × Resources)))
    (h : HostInv allowed hosts allocations) :
    hosts.map (fun p => p.1) = allocations.map (fun p => p.1) := by
  induction h with
  | nil => rfl
  | cons hR _ ih => simp [hR.1, ih]

theorem totalAllocated_append (l : List (String × Resources)) (q : String × Resources) :
    totalAllocated (l ++ [q]) =
      ⟨(totalAllocated l).cpu + q.2.cpu, (totalAllocated l).ram + q.2.ram⟩ := by
  simp [totalAllocated]

/-- Under the invariant, with unique host names, the dict lookup of a listed
host returns a tally bounded by that host's capacity. -/
theorem hostInv_lookup (allowed : List (String × Resources)) :
    ∀ (hosts : List (String × Resources)) (allocations : List (String × List (String × Resources))),
      HostInv allowed hosts allocations →
      (hosts.map (fun p => p.1)).Nodup →
      ∀ bh cb, (bh, cb) ∈ hosts →
        (totalAllocated (lookupAlloc allocations bh)).cpu ≤ cb.cpu ∧
        (totalAllocated (lookupAlloc allocations bh)).ram ≤ cb.ram ∧
        ∀ q ∈ lookupAlloc allocations bh, q ∈ allowed := by
  intro hosts allocations h
  induction h with
  | nil => intro _ bh cb hmem; simp at hmem
  | @cons hp ap hosts' allocs' hR hrest ih =>
    intro hnd bh cb hmem
    by_cases hb : hp.1 = bh
    · have hcb : cb = hp.2 := by
        rcases List.mem_cons.mp hmem with h | h
        · rw [← h]
        · exfalso
          have : bh ∈ hosts'.map (fun p => p.1) :=
            List.mem_map.mpr ⟨(bh, cb), h, rfl⟩
          rw [List.map_cons, List.nodup_cons] at hnd
          exact hnd.1 (hb ▸ this)
      have hap : ap.1 = bh := hR.1 ▸ hb
      have hl : lookupAlloc (ap :: allocs') bh = ap.2 := by
        unfold lookupAlloc
        rw [List.find?_cons_of_pos _ (by simp [hap])]
      rw [hl, hcb]
      exact ⟨hR.2.1, hR.2.2.1, hR.2.2.2⟩
    · have hap : ¬ap.1 = bh := hR.1 ▸ hb
      have hl : lookupAlloc (ap :: allocs') bh = lookupAlloc allocs' bh := by
        unfold lookupAlloc
        rw [List.find?_cons_of_neg _ (by simp [hap])]
      have hmem' : (bh, cb) ∈ hosts' := by
        rcases List.mem_cons.mp hmem with h | h
        · exact absurd (congrArg Prod.fst h).symm hb
        · exact h
      rw [List.map_cons, List.nodup_cons] at hnd
      rw [hl]
      exact ih hnd.2 bh cb hmem'

/-- Committing a VM that passed the capacity guard preserves the invariant. -/
theorem hostInv_commit (allowed : List (String × Resources)) :
    ∀ (hosts : List (String × Resources)) (allocations : List (String × List (String × Resources))),
      HostInv allowed hosts allocations →
      (hosts.map (fun p => p.1)).Nodup →
      ∀ bh cb vmn vres, (bh, cb) ∈ hosts →
        capacityOK cb (newAllocationOf allocations bh vres) →
        (vmn, vres) ∈ allowed →
        HostInv allowed hosts (commitAlloc allocations bh vmn vres) := by
  intro hosts allocations h
  induction h with
  | nil => intro _ bh cb vmn vres hmem; simp at hmem
  | @cons hp ap hosts' allocs' hR hrest ih =>
    intro hnd bh cb vmn vres hmem hguard hallow
    obtain ⟨apn, apl⟩ := ap
    by_cases hb : apn = bh
    · have hcb : cb = hp.2 := by
        rcases List.mem_cons.mp hmem with h | h
        · rw [← h]
        · exfalso
          have : bh ∈ hosts'.map (fun p => p.1) :=
            List.mem_map.mpr ⟨(bh, cb), h, rfl⟩
          rw [List.map_cons, List.nodup_cons] at hnd
          exact hnd.1 ((hR.1.trans hb) ▸ this)
      have hl : lookupAlloc ((apn, apl) :: allocs') bh = apl := by
        unfold lookupAlloc
        rw [List.find?_cons_of_pos _ (by simp [hb])]
      have hc : commitAlloc ((apn, apl) :: allocs') bh vmn vres =
          (apn, apl ++ [(vmn, vres)]) :: allocs' := by
        rw [commitAlloc, if_pos hb]
      rw [hc]
      refine List.Forall₂.cons ⟨hR.1, ?_, ?_, ?_⟩ hrest
      · rw [totalAllocated_append]
        have h2 := hguard.1
        simp only [newAllocationOf] at h2
        rw [hl, hcb] at h2
        exact h2
      · rw [totalAllocated_append]
        have h2 := hguard.2
        simp only [newAllocationOf] at h2
        rw [hl, hcb] at h2
        exact h2
      · intro q hq
        rcases List.mem_append.mp hq with h | h
        · exact hR.2.2.2 q h
        · rw [List.mem_singleton.mp h]; exact hallow
    · have hl : lookupAlloc ((apn, apl) :: allocs') bh = lookupAlloc allocs' bh := by
        unfold lookupAlloc
        rw [List.find?_cons_of_neg _ (by simp [hb])]
      have hc : commitAlloc ((apn, apl) :: allocs') bh vmn vres =
          (apn, apl) :: commitAlloc allocs' bh vmn vres := by
        rw [commitAlloc, if_neg hb]
      have hmem' : (bh, cb) ∈ hosts' := by
        rcases List.mem_cons.mp hmem with h | h
        · exact absurd (hR.1.symm.trans (congrArg Prod.fst h).symm) hb
        · exact h
      rw [List.map_cons, List.nodup_cons] at hnd
      rw [hc]
      refine List.Forall₂.cons hR (ih hnd.2 bh cb vmn vres hmem' ?_ hallow)
      simp only [newAllocationOf] at hguard ⊢
      rw [← hl]
      exact hguard

/-- The selected host is a listed host that passed the capacity guard. -/
theorem chooseHost_some_mem (allocs : List (String × List (String × Resources)))
    (vm : String) (res : Resources) (orig : Option String)
    (l : List (String × Resources)) (bh : String) (bs : ℝ)
    (h : chooseHost allocs vm res orig l none = some (bh, bs)) :
    ∃ cb, (bh, cb) ∈ l ∧ fits allocs res (bh, cb) := by
  obtain ⟨l1, cb, l2, hl, hfit, -, -, -⟩ := chooseHost_none_spec allocs vm res orig l bh bs h
  exact ⟨cb, by rw [hl]; exact List.mem_append.mpr (Or.inr (List.mem_cons_self _ _)), hfit⟩

/-- All VM names committed somewhere in the allocations table, in table order. -/
def placedNames (allocations : List (String × List (String × Resources))) : List String :=
  allocations.flatMap (fun p => p.2.map (fun q => q.1))

theorem placedNames_commit (bh vmn : String) (vres : Resources) (v : String) :
    ∀ allocs : List (String × List (String × Resources)),
      bh ∈ allocs.map (fun p => p.1) →
      (placedNames (commitAlloc allocs bh vmn vres)).count v =
        (placedNames allocs).count v + (if v = vmn then 1 else 0) := by
  intro allocs
  induction allocs with
  | nil => intro h; simp at h
  | cons p rest ih =>
    intro h
    obtain ⟨pn, pl⟩ := p
    by_cases hb : pn = bh
    · rw [show commitAlloc ((pn, pl) :: rest) bh vmn vres =
        (pn, pl ++ [(vmn, vres)]) :: rest by rw [commitAlloc, if_pos hb]]
      simp only [placedNames, List.flatMap_cons, List.map_append, List.count_append,
        List.map_cons, List.map_nil]
      by_cases hv : v = vmn
      · subst hv
        rw [List.count_cons_self, if_pos rfl]
        simp only [List.count_nil]
        omega
      · rw [List.count_cons_of_ne hv, if_neg hv]
        simp only [List.count_nil]
        omega
    · rw [show commitAlloc ((pn, pl) :: rest) bh vmn vres =
        (pn, pl) :: commitAlloc rest bh vmn vres by rw [commitAlloc, if_neg hb]]
      have h' : bh ∈ rest.map (fun p => p.1) := by
        rw [List.map_cons, List.mem_cons] at h
        rcases h with h1 | h1
        · exact absurd h1.symm hb
        · exact h1
      have ih' := ih h'
      simp only [placedNames, List.flatMap_cons, List.count_append] at ih' ⊢
      omega

theorem count_singleton_ite (v w : String) : List.count v [w] = if v = w then 1 else 0 := by
  by_cases h : v = w
  · subst h; rw [List.count_cons_self, if_pos rfl, List.count_nil]
  · rw [List.count_cons_of_ne h, if_neg h, List.count_nil]

/-- One VM step: the invariant is preserved, and the multiset of
placed-or-failed VM names gains exactly this VM's name. -/
theorem placeVM_step (hosts vms : List (String × Resources))
    (prev : List (String × List (String × Resources))) (st : AllocState)
    (vm : String × Resources)
    (hnd : (hosts.map (fun p => p.1)).Nodup)
    (hinv : HostInv vms hosts st.allocations)
    (hvm : vm ∈ vms) :
    HostInv vms hosts (placeVM hosts prev st vm).allocations ∧
    (∀ v, ((placedNames (placeVM hosts prev st vm).allocations) ++
        (placeVM hosts prev st vm).failed_allocations).count v =
      ((placedNames st.allocations) ++ st.failed_allocations).count v +
        (if v = vm.1 then 1 else 0)) := by
  rcases heq : chooseHost st.allocations vm.1 vm.2 (findOriginalHost prev vm.1)
      (sortDesc hosts) none with _ | ⟨bh, bs⟩
  · rw [placeVM_eq_fail hosts prev st vm heq]
    refine ⟨hinv, ?_⟩
    intro v
    show (placedNames st.allocations ++ (st.failed_allocations ++ [vm.1])).count v = _
    rw [List.count_append, List.count_append, List.count_append, count_singleton_ite]
    omega
  · by_cases hbh : bh = ""
    · subst hbh
      rw [placeVM_eq_fail_empty hosts prev st vm bs heq]
      refine ⟨hinv, ?_⟩
      intro v
      show (placedNames st.allocations ++ (st.failed_allocations ++ [vm.1])).count v = _
      rw [List.count_append, List.count_append, List.count_append, count_singleton_ite]
      omega
    · rw [placeVM_eq_commit hosts prev st vm bh bs heq hbh]
      obtain ⟨cb, hmem_s, hfit⟩ := chooseHost_some_mem _ _ _ _ _ _ _ heq
      have hmem : (bh, cb) ∈ hosts :=
        (List.perm_insertionSort sortDescRel hosts).mem_iff.mp hmem_s
      have hvm' : (vm.1, vm.2) ∈ vms := by
        have : (vm.1, vm.2) = vm := rfl
        rw [this]; exact hvm
      have hkey : bh ∈ st.allocations.map (fun p => p.1) := by
        rw [← hostInv_keys vms hosts st.allocations hinv]
        exact List.mem_map.mpr ⟨(bh, cb), hmem, rfl⟩
      constructor
      · exact hostInv_commit vms hosts st.allocations hinv hnd bh cb vm.1 vm.2 hmem hfit hvm'
      · intro v
        show (placedNames (commitAlloc st.allocations bh vm.1 vm.2) ++
          st.failed_allocations).count v = _
        rw [List.count_append, List.count_append,
          placedNames_commit bh vm.1 vm.2 v st.allocations hkey]
        omega

/-- Folding the VM loop over a list of (allowed) VMs preserves the invariant
and adds exactly the processed VM names to the placed-or-failed multiset. -/
theorem foldl_inv_count (hosts vms : List (String × Resources))
    (prev : List (String × List (String × Resources)))
    (hnd : (hosts.map (fun p => p.1)).Nodup) :
    ∀ (l : List (String × Resources)) (st : AllocState),
      HostInv vms hosts st.allocations → (∀ x ∈ l, x ∈ vms) →
      HostInv vms hosts (l.foldl (placeVM hosts prev) st).allocations ∧
      ∀ v, ((placedNames (l.foldl (placeVM hosts prev) st).allocations) ++
          (l.foldl (placeVM hosts prev) st).failed_allocations).count v =
        ((placedNames st.allocations) ++ st.failed_allocations).count v +
          (l.map (fun p => p.1)).count v := by
  intro l
  induction l with
  | nil =>
    intro st hinv _
    refine ⟨hinv, ?_⟩
    intro v
    simp
  | cons x rest ih =>
    intro st hinv hall
    have hstep := placeVM_step hosts vms prev st x hnd hinv (hall x (List.mem_cons_self _ _))
    have hrest := ih (placeVM hosts prev st x) hstep.1
      (fun y hy => hall y (List.mem_cons_of_mem _ hy))
    refine ⟨hrest.1, ?_⟩
    intro v
    rw [List.foldl_cons] at *
    rw [hrest.2 v, hstep.2 v, List.map_cons]
    by_cases hv : v = x.1
    · subst hv; rw [List.count_cons_self, if_pos rfl]; omega
    · rw [List.count_cons_of_ne hv, if_neg hv]; omega

/-- Pairing an output-table entry with its host under unique host names. -/
theorem hostInv_pair (allowed : List (String × Resources)) :
    ∀ (hosts : List (String × Resources)) (allocs : List (String × List (String × Resources))),
      HostInv allowed hosts allocs →
      (hosts.map (fun p => p.1)).Nodup →
      ∀ hname cap ap, (hname, cap) ∈ hosts → ap ∈ allocs → ap.1 = hname →
        hostEntryOK allowed (hname, cap) ap := by
  intro hosts allocs h
  induction h with
  | nil => intro _ hname cap ap hm; simp at hm
  | @cons hp ap' hosts' allocs' hR hrest ih =>
    intro hnd hname cap ap hm ha hap
    rw [List.map_cons, List.nodup_cons] at hnd
    rcases List.mem_cons.mp ha with h1 | h1
    · subst h1
      rcases List.mem_cons.mp hm with h2 | h2
      · rw [← h2] at hR
        exact hR
      · exfalso
        apply hnd.1
        have : hname ∈ hosts'.map (fun p => p.1) :=
          List.mem_map.mpr ⟨(hname, cap), h2, rfl⟩
        rw [hR.1, hap]
        exact this
    · rcases List.mem_cons.mp hm with h2 | h2
      · exfalso
        apply hnd.1
        have h3 : ap.1 ∈ allocs'.map (fun p => p.1) := List.mem_map.mpr ⟨ap, h1, rfl⟩
        rw [← hostInv_keys allowed hosts' allocs' hrest] at h3
        rw [← h2]
        exact hap ▸ h3
      · exact ih hnd.2 hname cap ap h2 h1 hap

/-- `vms[vm_name]`: dict lookup of a VM's demand in the input mapping. -/
def vmLookup (vms : List (String × Resources)) (v : String) : Resources :=
  match vms.find? (fun p => p.1 == v) with
  | some p => p.2
  | none => ⟨0, 0⟩

theorem vmLookup_of_mem :
    ∀ (vms : List (String × Resources)), (vms.map (fun p => p.1)).Nodup →
      ∀ n r, (n, r) ∈ vms → vmLookup vms n = r := by
  intro vms
  induction vms with
  | nil => intro _ n r h; simp at h
  | cons p rest ih =>
    intro hnd n r h
    obtain ⟨pn, pr⟩ := p
    rw [List.map_cons, List.nodup_cons] at hnd
    by_cases hb : pn = n
    · have hr : r = pr := by
        rcases List.mem_cons.mp h with h1 | h1
        · exact (Prod.mk.injEq .. ▸ h1.symm).2.symm ▸ rfl
        · exfalso
          apply hnd.1
          rw [hb]
          exact List.mem_map.mpr ⟨(n, r), h1, rfl⟩
      unfold vmLookup
      rw [List.find?_cons_of_pos _ (by simp [hb])]
      rw [hr]
    · have h1 : (n, r) ∈ rest := by
        rcases List.mem_cons.mp h with h1 | h1
        · exact absurd (congrArg Prod.fst h1).symm hb
        · exact h1
      unfold vmLookup
      rw [List.find?_cons_of_neg _ (by simp [hb])]
      exact ih hnd.2 n r h1

/-! ## Claim theorems -/

/-- C1: for every run of `allocate_vms` (non-negative integer capacities and
demands are enforced by the `Nat` data model, unique dict keys by `Nodup`),
and for every host, the sum of cpu (resp. ram) demands of the VMs assigned to
that host in the returned allocation does not exceed that host's cpu
(resp. ram) capacity. -/
theorem spec_C1_capacity_invariant (hosts vms : List (String × Resources))
    (prev : List (String × List (String × Resources)))
    (hndH : (hosts.map (fun p => p.1)).Nodup)
    (hndV : (vms.map (fun p => p.1)).Nodup) :
    ∀ hname cap names, (hname, cap) ∈ hosts →
      (hname, names) ∈ (allocate_vms hosts vms prev).1 →
      (names.map (fun v => (vmLookup vms v).cpu)).sum ≤ cap.cpu ∧
      (names.map (fun v => (vmLookup vms v).ram)).sum ≤ cap.ram := by
  have hfold := foldl_inv_count hosts vms prev hndH (sortDesc vms) (initState hosts)
    (hostInv_init vms hosts)
    (fun x hx => (List.perm_insertionSort sortDescRel vms).mem_iff.mp hx)
  intro hname cap names hmem hout
  have hout' : (hname, names) ∈
      ((sortDesc vms).foldl (placeVM hosts prev) (initState hosts)).allocations.map
        (fun p => (p.1, p.2.map (fun q => q.1))) := hout
  obtain ⟨ap, hap_mem, hap_eq⟩ := List.mem_map.mp hout'
  rw [Prod.mk.injEq] at hap_eq
  obtain ⟨hap1, hap2⟩ := hap_eq
  have hOK := hostInv_pair vms _ _ hfold.1 hndH hname cap ap hmem hap_mem hap1
  have hmap : ∀ q ∈ ap.2, (q.1, q.2) ∈ vms := by
    intro q hq
    exact hOK.2.2.2 q hq
  constructor
  · rw [← hap2, List.map_map]
    have : (ap.2.map (fun q => (vmLookup vms q.1).cpu)) = ap.2.map (fun q => q.2.cpu) := by
      rw [List.map_eq_map_iff]
      intro q hq
      rw [vmLookup_of_mem vms hndV q.1 q.2 (hmap q hq)]
    rw [show ((fun v => (vmLookup vms v).cpu) ∘ (fun q => q.1)) =
      (fun (q : String × Resources) => (vmLookup vms q.1).cpu) from rfl, this]
    exact hOK.2.1
  · rw [← hap2, List.map_map]
    have : (ap.2.map (fun q => (vmLookup vms q.1).ram)) = ap.2.map (fun q => q.2.ram) := by
      rw [List.map_eq_map_iff]
      intro q hq
      rw [vmLookup_of_mem vms hndV q.1 q.2 (hmap q hq)]
    rw [show ((fun v => (vmLookup vms v).ram) ∘ (fun q => q.1)) =
      (fun (q : String × Resources) => (vmLookup vms q.1).ram) from rfl, this]
    exact hOK.2.2.1

theorem spec_C1_capacity_invariant_witness :
    ((([("A", (⟨2, 3⟩ : Resources))].map (fun p => p.1)).Nodup) ∧
     (([("v", (⟨1, 1⟩ : Resources))].map (fun p => p.1)).Nodup)) ∧
    (∀ hname cap names, (hname, cap) ∈ [("A", (⟨2, 3⟩ : Resources))] →
      (hname, names) ∈ (allocate_vms [("A", ⟨2, 3⟩)] [("v", ⟨1, 1⟩)] []).1 →
      (names.map (fun v => (vmLookup [("v", ⟨1, 1⟩)] v).cpu)).sum ≤ cap.cpu ∧
      (names.map (fun v => (vmLookup [("v", ⟨1, 1⟩)] v).ram)).sum ≤ cap.ram) :=
  ⟨⟨by simp, by simp⟩,
   spec_C1_capacity_invariant [("A", ⟨2, 3⟩)] [("v", ⟨1, 1⟩)] [] (by simp) (by simp)⟩

theorem placedNames_init (hosts : List (String × Resources)) :
    placedNames (hosts.map (fun p => (p.1, []))) = [] := by
  induction hosts with
  | nil => rfl
  | cons p rest ih => simp [placedNames] at ih ⊢

/-- C2: every VM identifier from the input mapping appears in exactly one of
{some host's allocation list in the returned allocation, the returned failure
list} — counted over both places together, exactly once. -/
theorem spec_C2_totality (hosts vms : List (String × Resources))
    (prev : List (String × List (String × Resources)))
    (hndH : (hosts.map (fun p => p.1)).Nodup)
    (hndV : (vms.map (fun p => p.1)).Nodup) :
    ∀ v ∈ vms.map (fun p => p.1),
      (((allocate_vms hosts vms prev).1.flatMap (fun p => p.2)) ++
        (allocate_vms hosts vms prev).2.2).count v = 1 := by
  have hfold := foldl_inv_count hosts vms prev hndH (sortDesc vms) (initState hosts)
    (hostInv_init vms hosts)
    (fun x hx => (List.perm_insertionSort sortDescRel vms).mem_iff.mp hx)
  intro v hv
  have heq1 : (allocate_vms hosts vms prev).1.flatMap (fun p => p.2) =
      placedNames ((sortDesc vms).foldl (placeVM hosts prev) (initState hosts)).allocations := by
    show (((sortDesc vms).foldl (placeVM hosts prev) (initState hosts)).allocations.map
      (fun p => (p.1, p.2.map (fun q => q.1)))).flatMap (fun p => p.2) = _
    rw [List.flatMap_map]
    rfl
  have heq2 : (allocate_vms hosts vms prev).2.2 =
      ((sortDesc vms).foldl (placeVM hosts prev) (initState hosts)).failed_allocations := rfl
  rw [heq1, heq2, List.count_append]
  have h2 := hfold.2 v
  rw [List.count_append] at h2
  have hinit1 : placedNames ((initState hosts).allocations) = [] := placedNames_init hosts
  have hinit2 : (initState hosts).failed_allocations = [] := rfl
  rw [hinit1, hinit2] at h2
  simp only [List.nil_append, List.count_nil] at h2
  have hperm : ((sortDesc vms).map (fun p => p.1)).count v = (vms.map (fun p => p.1)).count v :=
    ((List.perm_insertionSort sortDescRel vms).map (fun p => p.1)).count_eq v
  rw [hperm] at h2
  rw [List.count_eq_one_of_mem hndV hv] at h2
  omega

theorem spec_C2_totality_witness :
    ((([("A", (⟨2, 3⟩ : Resources))].map (fun p => p.1)).Nodup) ∧
     (([("v", (⟨1, 1⟩ : Resources))].map (fun p => p.1)).Nodup) ∧
     "v" ∈ [("v", (⟨1, 1⟩ : Resources))].map (fun p => p.1)) ∧
    (((allocate_vms [("A", ⟨2, 3⟩)] [("v", ⟨1, 1⟩)] []).1.flatMap (fun p => p.2)) ++
      (allocate_vms [("A", ⟨2, 3⟩)] [("v", ⟨1, 1⟩)] []).2.2).count "v" = 1 :=
  ⟨⟨by decide, by decide, by decide⟩,
   spec_C2_totality [("A", ⟨2, 3⟩)] [("v", ⟨1, 1⟩)] [] (by decide) (by decide) "v" (by decide)⟩

/-- C7: for every candidate that passes the capacity guard, the utilization
is at most 100%, and the argument of the internal logarithm of the scoring
curve, evaluated exactly where `candidateScore` evaluates `calculate_f`
(namely at `utilization / 100`), is strictly positive.  Candidates failing
the guard are rejected before `calculate_f` is reached. -/
theorem spec_C7_log_argument_positive
    (allocs : List (String × List (String × Resources))) (res : Resources)
    (p : String × Resources) (h : fits allocs res p) :
    calculate_utilization p.2 (newAllocationOf allocs p.1 res) ≤ 100 ∧
    0 < -2.5 * ((calculate_utilization p.2 (newAllocationOf allocs p.1 res)) / 100) + 2.96 := by
  have hle := utilization_le_100 p.2 (newAllocationOf allocs p.1 res) h
  refine ⟨hle, ?_⟩
  have : calculate_utilization p.2 (newAllocationOf allocs p.1 res) / 100 ≤ 1 := by
    linarith
  linarith

theorem spec_C7_log_argument_positive_witness :
    fits [("A", ([] : List (String × Resources)))] (⟨1, 1⟩ : Resources) ("A", ⟨10, 10⟩) ∧
    (calculate_utilization (⟨10, 10⟩ : Resources)
        (newAllocationOf [("A", [])] "A" ⟨1, 1⟩) ≤ 100 ∧
      0 < -2.5 * ((calculate_utilization (⟨10, 10⟩ : Resources)
        (newAllocationOf [("A", [])] "A" ⟨1, 1⟩)) / 100) + 2.96) :=
  ⟨by decide, spec_C7_log_argument_positive [("A", [])] ⟨1, 1⟩ ("A", ⟨10, 10⟩) (by decide)⟩

/-- C8: `allocate_vms` is deterministic — identical inputs (same association
lists, hence same dict iteration orders) give identical outputs, including
the order of VM ids per host and the order of the failure list.  In this
embedding the allocator is a pure function, so determinism is equality
preservation. -/
theorem spec_C8_determinism (hostsA vmsA : List (String × Resources))
    (prevA : List (String × List (String × Resources)))
    (hostsB vmsB : List (String × Resources))
    (prevB : List (String × List (String × Resources)))
    (hh : hostsA = hostsB) (hv : vmsA = vmsB) (hp : prevA = prevB) :
    allocate_vms hostsA vmsA prevA = allocate_vms hostsB vmsB prevB := by
  subst hh; subst hv; subst hp; rfl

theorem spec_C8_determinism_witness :
    ([("A", (⟨2, 3⟩ : Resources))] = [("A", (⟨2, 3⟩ : Resources))]) ∧
    allocate_vms [("A", ⟨2, 3⟩)] [("v", ⟨1, 1⟩)] [] =
      allocate_vms [("A", ⟨2, 3⟩)] [("v", ⟨1, 1⟩)] [] :=
  ⟨rfl, spec_C8_determinism [("A", ⟨2, 3⟩)] [("v", ⟨1, 1⟩)] [] [("A", ⟨2, 3⟩)]
    [("v", ⟨1, 1⟩)] [] rfl rfl rfl⟩

open Classical in
/-- The score formula as the spec's claim words it (for comparison with the
source's `candidateScore`): `f(u)` with `u = utilization/100`, minus 1 if the
VM's previous host exists and differs from the candidate, minus 5 if the
candidate currently holds zero VMs, plus 10 if the candidate equals the
previous host. -/
noncomputable def claimedScore (original_host : Option String) (host_name : String)
    (host_is_empty : Bool) (utilization : ℝ) : ℝ :=
  calculate_f (utilization / 100)
    - (if ∃ o, original_host = some o ∧ ¬o = host_name then 1 else 0)
    - (if host_is_empty then 5 else 0)
    + (if original_host = some host_name then 10 else 0)

/-- C3 counterexample: for the feasible candidate (vm "vm1", host "host1",
empty host, no previous placement) the score used by the allocator differs
from the claimed formula — the source adds a hard-coded +100 bonus for the
name pair ("vm1", "host1") (and likewise ("vm2", "host2")). -/
theorem spec_C3_counterexample :
    capacityOK ⟨10, 10⟩ ⟨1, 1⟩ ∧
    calculate_utilization ⟨10, 10⟩ ⟨1, 1⟩ ≤ 100 ∧
    candidateScore "vm1" none "host1" true (calculate_utilization ⟨10, 10⟩ ⟨1, 1⟩) ≠
      claimedScore none "host1" true (calculate_utilization ⟨10, 10⟩ ⟨1, 1⟩) := by
  refine ⟨by decide, utilization_le_100 _ _ (by decide), ?_⟩
  intro h
  simp only [candidateScore, claimedScore, pyTruthy] at h
  split_ifs at h <;> first | linarith | simp_all

/-- C3 amended: for every candidate whose previous-host identifier, if any,
is a non-empty string, the allocator's score equals the claimed formula plus
100 when (vm, host) = ("vm1", "host1") and plus 100 when
(vm, host) = ("vm2", "host2"). -/
theorem spec_C3_amended_score (vm : String) (orig : Option String) (host : String)
    (he : Bool) (cap na : Resources) (hfeas : capacityOK cap na)
    (hne : ∀ o, orig = some o → ¬o = "") :
    candidateScore vm orig host he (calculate_utilization cap na) =
      claimedScore orig host he (calculate_utilization cap na) +
        (if vm = "vm1" ∧ host = "host1" then 100 else 0) +
        (if vm = "vm2" ∧ host = "host2" then 100 else 0) := by
  rcases orig with _ | o
  · simp only [candidateScore, claimedScore, pyTruthy, false_and, if_false,
      reduceCtorEq, and_false, exists_false]
    split_ifs <;> ring
  · have ho : ¬o = "" := hne o rfl
    simp only [candidateScore, claimedScore, pyTruthy, ho, not_false_iff, true_and,
      Option.some.injEq, exists_eq_left']
    split_ifs <;> first | ring | tauto

theorem spec_C3_amended_score_witness :
    (capacityOK ⟨10, 10⟩ ⟨1, 1⟩ ∧ (∀ o, (none : Option String) = some o → ¬o = "")) ∧
    candidateScore "v" none "A" true (calculate_utilization ⟨10, 10⟩ ⟨1, 1⟩) =
      claimedScore none "A" true (calculate_utilization ⟨10, 10⟩ ⟨1, 1⟩) +
        (if "v" = "vm1" ∧ "A" = "host1" then 100 else 0) +
        (if "v" = "vm2" ∧ "A" = "host2" then 100 else 0) :=
  ⟨⟨by decide, fun o h => Option.noConfusion h⟩,
   spec_C3_amended_score "v" none "A" true ⟨10, 10⟩ ⟨1, 1⟩ (by decide)
     (fun o h => Option.noConfusion h)⟩

/-- Committing never changes the set (or order) of host keys. -/
theorem commitAlloc_keys (bh vmn : String) (vres : Resources) :
    ∀ allocs : List (String × List (String × Resources)),
      (commitAlloc allocs bh vmn vres).map (fun p => p.1) = allocs.map (fun p => p.1) := by
  intro allocs
  induction allocs with
  | nil => rfl
  | cons p rest ih =>
    obtain ⟨pn, pl⟩ := p
    by_cases hb : pn = bh
    · rw [show commitAlloc ((pn, pl) :: rest) bh vmn vres =
        (pn, pl ++ [(vmn, vres)]) :: rest by rw [commitAlloc, if_pos hb]]
      rfl
    · rw [show commitAlloc ((pn, pl) :: rest) bh vmn vres =
        (pn, pl) :: commitAlloc rest bh vmn vres by rw [commitAlloc, if_neg hb]]
      simp [ih]

/-- A VM step never changes the host keys of the allocations table. -/
theorem placeVM_keys (hosts : List (String × Resources))
    (prev : List (String × List (String × Resources))) (st : AllocState)
    (vm : String × Resources) :
    (placeVM hosts prev st vm).allocations.map (fun p => p.1) =
      st.allocations.map (fun p => p.1) := by
  rcases heq : chooseHost st.allocations vm.1 vm.2 (findOriginalHost prev vm.1)
      (sortDesc hosts) none with _ | ⟨bh, bs⟩
  · rw [placeVM_eq_fail hosts prev st vm heq]
  · by_cases hbh : bh = ""
    · subst hbh
      rw [placeVM_eq_fail_empty hosts prev st vm bs heq]
    · rw [placeVM_eq_commit hosts prev st vm bh bs heq hbh]
      exact commitAlloc_keys bh vm.1 vm.2 st.allocations

theorem foldl_keys (hosts : List (String × Resources))
    (prev : List (String × List (String × Resources))) :
    ∀ (l : List (String × Resources)) (st : AllocState),
      ((l.foldl (placeVM hosts prev) st).allocations).map (fun p => p.1) =
        st.allocations.map (fun p => p.1) := by
  intro l
  induction l with
  | nil => intro st; rfl
  | cons x rest ih =>
    intro st
    rw [List.foldl_cons, ih (placeVM hosts prev st x), placeVM_keys]

/-- Each entry of a commit result is either untouched or the committed entry
with the new VM appended. -/
theorem commitAlloc_mem_cases (bh vmn : String) (vres : Resources) :
    ∀ (allocs : List (String × List (String × Resources)))
      (p : String × List (String × Resources)), p ∈ commitAlloc allocs bh vmn vres →
      p ∈ allocs ∨ ∃ cur, (p.1, cur) ∈ allocs ∧ p.2 = cur ++ [(vmn, vres)] := by
  intro allocs
  induction allocs with
  | nil => intro p hp; simp [commitAlloc] at hp
  | cons q rest ih =>
    intro p hp
    obtain ⟨qn, ql⟩ := q
    by_cases hb : qn = bh
    · rw [show commitAlloc ((qn, ql) :: rest) bh vmn vres =
        (qn, ql ++ [(vmn, vres)]) :: rest by rw [commitAlloc, if_pos hb]] at hp
      rcases List.mem_cons.mp hp with h | h
      · right
        refine ⟨ql, ?_, by rw [h]⟩
        rw [h]
        exact List.mem_cons_self _ _
      · left; exact List.mem_cons_of_mem _ h
    · rw [show commitAlloc ((qn, ql) :: rest) bh vmn vres =
        (qn, ql) :: commitAlloc rest bh vmn vres by rw [commitAlloc, if_neg hb]] at hp
      rcases List.mem_cons.mp hp with h | h
      · left; rw [h]; exact List.mem_cons_self _ _
      · rcases ih p h with h1 | ⟨cur, h1, h2⟩
        · left; exact List.mem_cons_of_mem _ h1
        · right; exact ⟨cur, List.mem_cons_of_mem _ h1, h2⟩

theorem placeVM_sublist (hosts : List (String × Resources))
    (prev : List (String × List (String × Resources))) (st : AllocState)
    (vm : String × Resources) (P : List String)
    (h : ∀ p ∈ st.allocations, List.Sublist (p.2.map (fun q => q.1)) P) :
    ∀ p ∈ (placeVM hosts prev st vm).allocations,
      List.Sublist (p.2.map (fun q => q.1)) (P ++ [vm.1]) := by
  have hext : ∀ p ∈ st.allocations, List.Sublist (p.2.map (fun q => q.1)) (P ++ [vm.1]) :=
    fun p hp => (h p hp).trans (List.sublist_append_left P [vm.1])
  rcases heq : chooseHost st.allocations vm.1 vm.2 (findOriginalHost prev vm.1)
      (sortDesc hosts) none with _ | ⟨bh, bs⟩
  · rw [placeVM_eq_fail hosts prev st vm heq]
    exact hext
  · by_cases hbh : bh = ""
    · subst hbh
      rw [placeVM_eq_fail_empty hosts prev st vm bs heq]
      exact hext
    · rw [placeVM_eq_commit hosts prev st vm bh bs heq hbh]
      intro p hp
      rcases commitAlloc_mem_cases bh vm.1 vm.2 st.allocations p hp with h1 | ⟨cur, h1, h2⟩
      · exact hext p h1
      · rw [h2, List.map_append]
        exact List.Sublist.append (h (p.1, cur) h1) (List.Sublist.refl _)

theorem foldl_sublist (hosts : List (String × Resources))
    (prev : List (String × List (String × Resources))) :
    ∀ (l : List (String × Resources)) (st : AllocState) (P : List String),
      (∀ p ∈ st.allocations, List.Sublist (p.2.map (fun q => q.1)) P) →
      ∀ p ∈ ((l.foldl (placeVM hosts prev) st).allocations),
        List.Sublist (p.2.map (fun q => q.1)) (P ++ l.map (fun x => x.1)) := by
  intro l
  induction l with
  | nil =>
    intro st P h p hp
    rw [List.map_nil, List.append_nil]
    exact h p hp
  | cons x rest ih =>
    intro st P h p hp
    rw [List.foldl_cons] at hp
    have hstep := placeVM_sublist hosts prev st x P h
    have := ih (placeVM hosts prev st x) (P ++ [x.1]) hstep p hp
    rw [List.append_assoc] at this
    exact this

/-- C10: the returned allocation has exactly the input host identifiers as
keys, in input order (so every input host appears, even with an empty list,
and nothing else appears); each host's list of VM identifiers respects
commit order (it is a subsequence of the VM processing order). -/
theorem spec_C10_allocation_keys (hosts vms : List (String × Resources))
    (prev : List (String × List (String × Resources))) :
    ((allocate_vms hosts vms prev).1.map (fun p => p.1) = hosts.map (fun p => p.1)) ∧
    ∀ p ∈ (allocate_vms hosts vms prev).1,
      List.Sublist p.2 ((sortDesc vms).map (fun x => x.1)) := by
  constructor
  · show ((((sortDesc vms).foldl (placeVM hosts prev) (initState hosts)).allocations.map
      (fun p => (p.1, p.2.map (fun q => q.1)))).map (fun p => p.1)) = _
    rw [List.map_map]
    have : ((fun (p : String × List String) => p.1) ∘
        (fun (p : String × List (String × Resources)) => (p.1, p.2.map (fun q => q.1)))) =
        (fun (p : String × List (String × Resources)) => p.1) := rfl
    rw [this, foldl_keys]
    show (hosts.map (fun p => (p.1, ([] : List (String × Resources))))).map (fun p => p.1) = _
    rw [List.map_map]
    rfl
  · intro p hp
    have hp' : p ∈ (((sortDesc vms).foldl (placeVM hosts prev) (initState hosts)).allocations.map
      (fun p => (p.1, p.2.map (fun q => q.1)))) := hp
    obtain ⟨ap, hap, heq⟩ := List.mem_map.mp hp'
    have hinit : ∀ q ∈ (initState hosts).allocations,
        List.Sublist (q.2.map (fun r => r.1)) [] := by
      intro q hq
      have : q ∈ hosts.map (fun p => (p.1, ([] : List (String × Resources)))) := hq
      obtain ⟨r, -, hr⟩ := List.mem_map.mp this
      rw [← hr]
      exact List.Sublist.refl _
    have := foldl_sublist hosts prev (sortDesc vms) (initState hosts) [] hinit ap hap
    rw [List.nil_append] at this
    rw [← heq]
    exact this

theorem spec_C10_allocation_keys_witness :
    ((allocate_vms [("A", (⟨2, 3⟩ : Resources))] [("v", (⟨1, 1⟩ : Resources))] []).1.map
        (fun p => p.1) = [("A", (⟨2, 3⟩ : Resources))].map (fun p => p.1)) ∧
    ∀ p ∈ (allocate_vms [("A", (⟨2, 3⟩ : Resources))] [("v", (⟨1, 1⟩ : Resources))] []).1,
      List.Sublist p.2 ((sortDesc [("v", (⟨1, 1⟩ : Resources))]).map (fun x => x.1)) :=
  spec_C10_allocation_keys [("A", ⟨2, 3⟩)] [("v", ⟨1, 1⟩)] []

/-- A step either leaves the failure list unchanged (VM committed) or appends
exactly this VM's name (VM unplaceable or empty-named best host). -/
theorem placeVM_failed_cases (hosts : List (String × Resources))
    (prev : List (String × List (String × Resources))) (st : AllocState)
    (vm : String × Resources) :
    (placeVM hosts prev st vm).failed_allocations = st.failed_allocations ∨
    (placeVM hosts prev st vm).failed_allocations = st.failed_allocations ++ [vm.1] := by
  rcases heq : chooseHost st.allocations vm.1 vm.2 (findOriginalHost prev vm.1)
      (sortDesc hosts) none with _ | ⟨bh, bs⟩
  · right; rw [placeVM_eq_fail hosts prev st vm heq]
  · by_cases hbh : bh = ""
    · subst hbh
      right; rw [placeVM_eq_fail_empty hosts prev st vm bs heq]
    · left; rw [placeVM_eq_commit hosts prev st vm bh bs heq hbh]

/-- Processing VMs with other names neither adds nor removes `v` from the
failure list. -/
theorem foldl_failed_other (hosts : List (String × Resources))
    (prev : List (String × List (String × Resources))) :
    ∀ (l : List (String × Resources)) (st : AllocState) (v : String),
      ¬v ∈ l.map (fun x => x.1) →
      (v ∈ (l.foldl (placeVM hosts prev) st).failed_allocations ↔
        v ∈ st.failed_allocations) := by
  intro l
  induction l with
  | nil => intro st v _; rfl
  | cons x rest ih =>
    intro st v hv
    rw [List.map_cons, List.mem_cons] at hv
    push_neg at hv
    rw [List.foldl_cons, ih (placeVM hosts prev st x) v hv.2]
    rcases placeVM_failed_cases hosts prev st x with h | h
    · rw [h]
    · rw [h, List.mem_append]
      constructor
      · rintro (h1 | h1)
        · exact h1
        · exact absurd (List.mem_singleton.mp h1) hv.1
      · exact Or.inl

/-- With all host names non-empty, a VM's name is appended to the failure
list exactly when no host passes the capacity guard for it. -/
theorem placeVM_failed_iff (hosts : List (String × Resources))
    (prev : List (String × List (String × Resources))) (st : AllocState)
    (vm : String × Resources) (hne : ∀ p ∈ hosts, ¬p.1 = "") :
    (placeVM hosts prev st vm).failed_allocations = st.failed_allocations ++ [vm.1] ↔
      ∀ p ∈ hosts, ¬fits st.allocations vm.2 p := by
  rcases heq : chooseHost st.allocations vm.1 vm.2 (findOriginalHost prev vm.1)
      (sortDesc hosts) none with _ | ⟨bh, bs⟩
  · rw [placeVM_eq_fail hosts prev st vm heq]
    simp only [true_iff]
    obtain ⟨-, hnofit⟩ := (chooseHost_eq_none_iff st.allocations vm.1 vm.2
      (findOriginalHost prev vm.1) (sortDesc hosts) none).mp heq
    intro p hp
    exact hnofit p ((List.perm_insertionSort sortDescRel hosts).mem_iff.mpr hp)
  · obtain ⟨cb, hmem, hfit⟩ := chooseHost_some_mem _ _ _ _ _ _ _ heq
    have hmem' : (bh, cb) ∈ hosts :=
      (List.perm_insertionSort sortDescRel hosts).mem_iff.mp hmem
    have hbh : ¬bh = "" := hne (bh, cb) hmem'
    rw [placeVM_eq_commit hosts prev st vm bh bs heq hbh]
    constructor
    · intro h
      exfalso
      have := congrArg List.length h
      simp at this
    · intro h
      exact absurd hfit (h (bh, cb) hmem')

theorem canAccommodate_iff_fits (allocs : List (String × List (String × Resources)))
    (res : Resources) (p : String × Resources) :
    canAccommodate allocs res p ↔ fits allocs res p :=
  ⟨fun h => h.1, fun h => ⟨h, utilization_le_100 _ _ h⟩⟩

/-- C5 (amended): provided every host identifier is a non-empty string, a VM
lands in the returned failure list exactly when, at its processing step, no
host could accommodate it (capacity check fails in some dimension or the
resulting utilization exceeds 100%); and the run continues with the
remaining VMs from the post-step state (a failure never aborts the run). -/
theorem spec_C5_failure_iff (hosts vms : List (String × Resources))
    (prev : List (String × List (String × Resources)))
    (v : String) (res : Resources) (l1 l2 : List (String × Resources))
    (hne : ∀ p ∈ hosts, ¬p.1 = "")
    (hndV : (vms.map (fun p => p.1)).Nodup)
    (hsplit : sortDesc vms = l1 ++ (v, res) :: l2) :
    (v ∈ (allocate_vms hosts vms prev).2.2 ↔
      ∀ p ∈ hosts, ¬canAccommodate
        ((l1.foldl (placeVM hosts prev) (initState hosts)).allocations) res p) ∧
    ((sortDesc vms).foldl (placeVM hosts prev) (initState hosts) =
      l2.foldl (placeVM hosts prev)
        (placeVM hosts prev (l1.foldl (placeVM hosts prev) (initState hosts)) (v, res))) := by
  have hndS : ((sortDesc vms).map (fun p => p.1)).Nodup :=
    (((List.perm_insertionSort sortDescRel vms).map (fun p => p.1)).nodup_iff).mpr hndV
  rw [hsplit] at hndS
  have hndS' : (l1.map (fun p => p.1) ++ v :: l2.map (fun p => p.1)).Nodup := by
    simpa using hndS
  obtain ⟨hn1, hn2, hdisj⟩ := List.nodup_append.mp hndS'
  have hv1 : ¬v ∈ l1.map (fun p => p.1) :=
    fun hmem => hdisj hmem (List.mem_cons_self _ _)
  have hv2 : ¬v ∈ l2.map (fun p => p.1) := (List.nodup_cons.mp hn2).1
  constructor
  · have hrw : v ∈ (allocate_vms hosts vms prev).2.2 ↔
        v ∈ (placeVM hosts prev (l1.foldl (placeVM hosts prev) (initState hosts))
          (v, res)).failed_allocations := by
      show v ∈ ((sortDesc vms).foldl (placeVM hosts prev)
        (initState hosts)).failed_allocations ↔ _
      rw [hsplit, List.foldl_append, List.foldl_cons]
      exact foldl_failed_other hosts prev l2 _ v hv2
    rw [hrw]
    have hnotmem : ¬v ∈ (l1.foldl (placeVM hosts prev) (initState hosts)).failed_allocations := by
      rw [foldl_failed_other hosts prev l1 (initState hosts) v hv1]
      intro hmem
      exact List.not_mem_nil v hmem
    rcases placeVM_failed_cases hosts prev
        (l1.foldl (placeVM hosts prev) (initState hosts)) (v, res) with h | h
    · rw [h]
      constructor
      · intro hmem; exact absurd hmem hnotmem
      · intro hall
        exfalso
        have hnofit : ¬∀ p ∈ hosts, ¬fits
            (l1.foldl (placeVM hosts prev) (initState hosts)).allocations res p := by
          intro hfitall
          have happ := (placeVM_failed_iff hosts prev
            (l1.foldl (placeVM hosts prev) (initState hosts)) (v, res) hne).mpr hfitall
          rw [h] at happ
          have hlen := congrArg List.length happ
          simp at hlen
        apply hnofit
        intro p hp hf
        exact (hall p hp) ((canAccommodate_iff_fits _ _ _).mpr hf)
    · constructor
      · intro _
        have hall := (placeVM_failed_iff hosts prev
          (l1.foldl (placeVM hosts prev) (initState hosts)) (v, res) hne).mp h
        intro p hp hcan
        exact (hall p hp) hcan.1
      · intro _
        rw [h, List.mem_append]
        right
        exact List.mem_singleton.mpr rfl
  · rw [hsplit, List.foldl_append, List.foldl_cons]

/-- C5 counterexample against the claim as stated: with a host whose
identifier is the empty string, Python's `if best_host:` treats the selected
host as absent, so the VM is reported failed even though a host could
accommodate it. -/
theorem spec_C5_counterexample :
    ¬(("v" ∈ (allocate_vms [("", ⟨10, 10⟩)] [("v", ⟨1, 1⟩)] []).2.2) ↔
      (∀ p ∈ [(("" : String), (⟨10, 10⟩ : Resources))],
        ¬canAccommodate ((initState [("", ⟨10, 10⟩)]).allocations) ⟨1, 1⟩ p)) := by
  intro hiff
  have hacc : canAccommodate ((initState [("", ⟨10, 10⟩)]).allocations) ⟨1, 1⟩
      ("", ⟨10, 10⟩) :=
    (canAccommodate_iff_fits _ _ _).mpr (by decide)
  have hmem : "v" ∈ (allocate_vms [("", ⟨10, 10⟩)] [("v", ⟨1, 1⟩)] []).2.2 := by
    show "v" ∈ ((sortDesc [("v", ⟨1, 1⟩)]).foldl
      (placeVM [("", ⟨10, 10⟩)] []) (initState [("", ⟨10, 10⟩)])).failed_allocations
    have hsort : sortDesc [(("v" : String), (⟨1, 1⟩ : Resources))] = [("v", ⟨1, 1⟩)] := rfl
    rw [hsort, List.foldl_cons, List.foldl_nil]
    rcases heq : chooseHost (initState [("", ⟨10, 10⟩)]).allocations "v" ⟨1, 1⟩
        (findOriginalHost [] "v") (sortDesc [("", ⟨10, 10⟩)]) none with _ | ⟨bh, bs⟩
    · exfalso
      obtain ⟨-, hnofit⟩ := (chooseHost_eq_none_iff _ _ _ _ _ _).mp heq
      exact hnofit ("", ⟨10, 10⟩) (by decide) (by decide)
    · obtain ⟨cb, hmem_s, -⟩ := chooseHost_some_mem _ _ _ _ _ _ _ heq
      have hbh : bh = "" := by
        have : sortDesc [(("" : String), (⟨10, 10⟩ : Resources))] = [("", ⟨10, 10⟩)] := rfl
        rw [this] at hmem_s
        rcases List.mem_cons.mp hmem_s with h1 | h1
        · exact congrArg Prod.fst h1
        · exact absurd h1 (List.not_mem_nil _)
      subst hbh
      rw [placeVM_eq_fail_empty [("", ⟨10, 10⟩)] [] (initState [("", ⟨10, 10⟩)])
        ("v", ⟨1, 1⟩) bs heq]
      show "v" ∈ (initState [(("" : String), (⟨10, 10⟩ : Resources))]).failed_allocations ++ ["v"]
      rw [List.mem_append]
      right
      exact List.mem_singleton.mpr rfl
  exact (hiff.mp hmem) ("", ⟨10, 10⟩) (List.mem_singleton.mpr rfl) hacc

theorem spec_C5_failure_iff_witness :
    ((∀ p ∈ [(("A" : String), (⟨2, 3⟩ : Resources))], ¬p.1 = "") ∧
     (([("v", (⟨1, 1⟩ : Resources))].map (fun p => p.1)).Nodup) ∧
     sortDesc [("v", (⟨1, 1⟩ : Resources))] = [] ++ ("v", ⟨1, 1⟩) :: []) ∧
    (("v" ∈ (allocate_vms [("A", ⟨2, 3⟩)] [("v", ⟨1, 1⟩)] []).2.2 ↔
      ∀ p ∈ [(("A" : String), (⟨2, 3⟩ : Resources))],
        ¬canAccommodate (([] : List (String × Resources)).foldl
          (placeVM [("A", ⟨2, 3⟩)] []) (initState [("A", ⟨2, 3⟩)])).allocations ⟨1, 1⟩ p) ∧
    ((sortDesc [("v", (⟨1, 1⟩ : Resources))]).foldl
        (placeVM [("A", ⟨2, 3⟩)] []) (initState [("A", ⟨2, 3⟩)]) =
      ([] : List (String × Resources)).foldl (placeVM [("A", ⟨2, 3⟩)] [])
        (placeVM [("A", ⟨2, 3⟩)] []
          (([] : List (String × Resources)).foldl (placeVM [("A", ⟨2, 3⟩)] [])
            (initState [("A", ⟨2, 3⟩)])) ("v", ⟨1, 1⟩)))) :=
  ⟨⟨by decide, by decide, rfl⟩,
   spec_C5_failure_iff [("A", ⟨2, 3⟩)] [("v", ⟨1, 1⟩)] [] "v" ⟨1, 1⟩ [] []
     (by decide) (by decide) rfl⟩

/-- The concrete scenario's hosts: `{A: cpu=24, ram=512; B: cpu=32, ram=768}`. -/
def hostsC : List (String × Resources) := [("A", ⟨24, 512⟩), ("B", ⟨32, 768⟩)]

/-- The concrete scenario's VMs:
`{v1: cpu=2, ram=4; v2: cpu=3, ram=7; v3: cpu=128, ram=1024}`. -/
def vmsC : List (String × Resources) := [("v1", ⟨2, 4⟩), ("v2", ⟨3, 7⟩), ("v3", ⟨128, 1024⟩)]

/-- C9: on the concrete scenario with no previous placement, v3 lands in the
failure list, v1 and v2 are both placed on some host, and no migrations are
recorded. -/
theorem spec_C9_concrete_scenario :
    ("v3" ∈ (allocate_vms hostsC vmsC []).2.2) ∧
    (∃ p ∈ (allocate_vms hostsC vmsC []).1, "v1" ∈ p.2) ∧
    (∃ p ∈ (allocate_vms hostsC vmsC []).1, "v2" ∈ p.2) ∧
    ((allocate_vms hostsC vmsC []).2.1 = []) := by
  have hsortv : sortDesc vmsC = [("v3", ⟨128, 1024⟩), ("v2", ⟨3, 7⟩), ("v1", ⟨2, 4⟩)] := by
    decide
  have hsorth : sortDesc hostsC = [("B", ⟨32, 768⟩), ("A", ⟨24, 512⟩)] := by decide
  have hch3 : chooseHost (initState hostsC).allocations "v3" ⟨128, 1024⟩
      (findOriginalHost [] "v3") (sortDesc hostsC) none = none :=
    (chooseHost_eq_none_iff (initState hostsC).allocations "v3" ⟨128, 1024⟩
      (findOriginalHost [] "v3") (sortDesc hostsC) none).mpr ⟨rfl, by decide⟩
  have e1 : placeVM hostsC [] (initState hostsC) ("v3", ⟨128, 1024⟩) =
      ({ allocations := [("A", []), ("B", [])],
         remaining_resources := [("A", (24, 512)), ("B", (32, 768))],
         migrations := [], failed_allocations := ["v3"] } : AllocState) := by
    rw [placeVM_eq_fail hostsC [] (initState hostsC) ("v3", ⟨128, 1024⟩) hch3]
    rfl
  rcases heq2 : chooseHost
      ({ allocations := [("A", []), ("B", [])],
         remaining_resources := [("A", (24, 512)), ("B", (32, 768))],
         migrations := [], failed_allocations := ["v3"] } : AllocState).allocations
      "v2" ⟨3, 7⟩ (findOriginalHost [] "v2") (sortDesc hostsC) none with _ | ⟨bh2, bs2⟩
  · exfalso
    obtain ⟨-, hnofit⟩ := (chooseHost_eq_none_iff _ _ _ _ _ _).mp heq2
    exact hnofit ("B", ⟨32, 768⟩) (by rw [hsorth]; decide) (by decide)
  · obtain ⟨cb2, hmem2, -⟩ := chooseHost_some_mem _ _ _ _ _ _ _ heq2
    rw [hsorth] at hmem2
    have hbh2 : bh2 = "B" ∨ bh2 = "A" := by
      rcases List.mem_cons.mp hmem2 with h1 | h1
      · exact Or.inl (congrArg Prod.fst h1)
      · rcases List.mem_cons.mp h1 with h2 | h2
        · exact Or.inr (congrArg Prod.fst h2)
        · exact absurd h2 (List.not_mem_nil _)
    rcases hbh2 with hb2 | hb2 <;> subst hb2
    · -- v2 placed on B
      have e2 : placeVM hostsC []
          ({ allocations := [("A", []), ("B", [])],
             remaining_resources := [("A", (24, 512)), ("B", (32, 768))],
             migrations := [], failed_allocations := ["v3"] } : AllocState) ("v2", ⟨3, 7⟩) =
          ({ allocations := [("A", []), ("B", [("v2", ⟨3, 7⟩)])],
             remaining_resources := [("A", (24, 512)), ("B", (29, 761))],
             migrations := [], failed_allocations := ["v3"] } : AllocState) := by
        rw [placeVM_eq_commit hostsC [] _ ("v2", ⟨3, 7⟩) "B" bs2 heq2 (by decide)]
        rfl
      rcases heq3 : chooseHost
          ({ allocations := [("A", []), ("B", [("v2", ⟨3, 7⟩)])],
             remaining_resources := [("A", (24, 512)), ("B", (29, 761))],
             migrations := [], failed_allocations := ["v3"] } : AllocState).allocations
          "v1" ⟨2, 4⟩ (findOriginalHost [] "v1") (sortDesc hostsC) none with _ | ⟨bh1, bs1⟩
      · exfalso
        obtain ⟨-, hnofit⟩ := (chooseHost_eq_none_iff _ _ _ _ _ _).mp heq3
        exact hnofit ("B", ⟨32, 768⟩) (by rw [hsorth]; decide) (by decide)
      · obtain ⟨cb1, hmem1, -⟩ := chooseHost_some_mem _ _ _ _ _ _ _ heq3
        rw [hsorth] at hmem1
        have hbh1 : bh1 = "B" ∨ bh1 = "A" := by
          rcases List.mem_cons.mp hmem1 with h1 | h1
          · exact Or.inl (congrArg Prod.fst h1)
          · rcases List.mem_cons.mp h1 with h2 | h2
            · exact Or.inr (congrArg Prod.fst h2)
            · exact absurd h2 (List.not_mem_nil _)
        rcases hbh1 with hb1 | hb1 <;> subst hb1
        · have e3 : placeVM hostsC []
              ({ allocations := [("A", []), ("B", [("v2", ⟨3, 7⟩)])],
                 remaining_resources := [("A", (24, 512)), ("B", (29, 761))],
                 migrations := [], failed_allocations := ["v3"] } : AllocState) ("v1", ⟨2, 4⟩) =
              ({ allocations := [("A", []), ("B", [("v2", ⟨3, 7⟩), ("v1", ⟨2, 4⟩)])],
                 remaining_resources := [("A", (24, 512)), ("B", (27, 757))],
                 migrations := [], failed_allocations := ["v3"] } : AllocState) := by
            rw [placeVM_eq_commit hostsC [] _ ("v1", ⟨2, 4⟩) "B" bs1 heq3 (by decide)]
            rfl
          have hfin : (sortDesc vmsC).foldl (placeVM hostsC []) (initState hostsC) =
              ({ allocations := [("A", []), ("B", [("v2", ⟨3, 7⟩), ("v1", ⟨2, 4⟩)])],
                 remaining_resources := [("A", (24, 512)), ("B", (27, 757))],
                 migrations := [], failed_allocations := ["v3"] } : AllocState) := by
            rw [hsortv, List.foldl_cons, List.foldl_cons, List.foldl_cons, List.foldl_nil,
              e1, e2, e3]
          refine ⟨?_, ?_, ?_, ?_⟩
          · show "v3" ∈ ((sortDesc vmsC).foldl (placeVM hostsC [])
              (initState hostsC)).failed_allocations
            rw [hfin]; decide
          · show ∃ p ∈ ((sortDesc vmsC).foldl (placeVM hostsC [])
              (initState hostsC)).allocations.map (fun p => (p.1, p.2.map (fun q => q.1))),
              "v1" ∈ p.2
            rw [hfin]; decide
          · show ∃ p ∈ ((sortDesc vmsC).foldl (placeVM hostsC [])
              (initState hostsC)).allocations.map (fun p => (p.1, p.2.map (fun q => q.1))),
              "v2" ∈ p.2
            rw [hfin]; decide
          · show ((sortDesc vmsC).foldl (placeVM hostsC [])
              (initState hostsC)).migrations = []
            rw [hfin]
        · have e3 : placeVM hostsC []
              ({ allocations := [("A", []), ("B", [("v2", ⟨3, 7⟩)])],
                 remaining_resources := [("A", (24, 512)), ("B", (29, 761))],
                 migrations := [], failed_allocations := ["v3"] } : AllocState) ("v1", ⟨2, 4⟩) =
              ({ allocations := [("A", [("v1", ⟨2, 4⟩)]), ("B", [("v2", ⟨3, 7⟩)])],
                 remaining_resources := [("A", (22, 508)), ("B", (29, 761))],
                 migrations := [], failed_allocations := ["v3"] } : AllocState) := by
            rw [placeVM_eq_commit hostsC [] _ ("v1", ⟨2, 4⟩) "A" bs1 heq3 (by decide)]
            rfl
          have hfin : (sortDesc vmsC).foldl (placeVM hostsC []) (initState hostsC) =
              ({ allocations := [("A", [("v1", ⟨2, 4⟩)]), ("B", [("v2", ⟨3, 7⟩)])],
                 remaining_resources := [("A", (22, 508)), ("B", (29, 761))],
                 migrations := [], failed_allocations := ["v3"] } : AllocState) := by
            rw [hsortv, List.foldl_cons, List.foldl_cons, List.foldl_cons, List.foldl_nil,
              e1, e2, e3]
          refine ⟨?_, ?_, ?_, ?_⟩
          · show "v3" ∈ ((sortDesc vmsC).foldl (placeVM hostsC [])
              (initState hostsC)).failed_allocations
            rw [hfin]; decide
          · show ∃ p ∈ ((sortDesc vmsC).foldl (placeVM hostsC [])
              (initState hostsC)).allocations.map (fun p => (p.1, p.2.map (fun q => q.1))),
              "v1" ∈ p.2
            rw [hfin]; decide
          · show ∃ p ∈ ((sortDesc vmsC).foldl (placeVM hostsC [])
              (initState hostsC)).allocations.map (fun p => (p.1, p.2.map (fun q => q.1))),
              "v2" ∈ p.2
            rw [hfin]; decide
          · show ((sortDesc vmsC).foldl (placeVM hostsC [])
              (initState hostsC)).migrations = []
            rw [hfin]
    · -- v2 placed on A
      have e2 : placeVM hostsC []
          ({ allocations := [("A", []), ("B", [])],
             remaining_resources := [("A", (24, 512)), ("B", (32, 768))],
             migrations := [], failed_allocations := ["v3"] } : AllocState) ("v2", ⟨3, 7⟩) =
          ({ allocations := [("A", [("v2", ⟨3, 7⟩)]), ("B", [])],
             remaining_resources := [("A", (21, 505)), ("B", (32, 768))],
             migrations := [], failed_allocations := ["v3"] } : AllocState) := by
        rw [placeVM_eq_commit hostsC [] _ ("v2", ⟨3, 7⟩) "A" bs2 heq2 (by decide)]
        rfl
      rcases heq3 : chooseHost
          ({ allocations := [("A", [("v2", ⟨3, 7⟩)]), ("B", [])],
             remaining_resources := [("A", (21, 505)), ("B", (32, 768))],
             migrations := [], failed_allocations := ["v3"] } : AllocState).allocations
          "v1" ⟨2, 4⟩ (findOriginalHost [] "v1") (sortDesc hostsC) none with _ | ⟨bh1, bs1⟩
      · exfalso
        obtain ⟨-, hnofit⟩ := (chooseHost_eq_none_iff _ _ _ _ _ _).mp heq3
        exact hnofit ("B", ⟨32, 768⟩) (by rw [hsorth]; decide) (by decide)
      · obtain ⟨cb1, hmem1, -⟩ := chooseHost_some_mem _ _ _ _ _ _ _ heq3
        rw [hsorth] at hmem1
        have hbh1 : bh1 = "B" ∨ bh1 = "A" := by
          rcases List.mem_cons.mp hmem1 with h1 | h1
          · exact Or.inl (congrArg Prod.fst h1)
          · rcases List.mem_cons.mp h1 with h2 | h2
            · exact Or.inr (congrArg Prod.fst h2)
            · exact absurd h2 (List.not_mem_nil _)
        rcases hbh1 with hb1 | hb1 <;> subst hb1
        · have e3 : placeVM hostsC []
              ({ allocations := [("A", [("v2", ⟨3, 7⟩)]), ("B", [])],
                 remaining_resources := [("A", (21, 505)), ("B", (32, 768))],
                 migrations := [], failed_allocations := ["v3"] } : AllocState) ("v1", ⟨2, 4⟩) =
              ({ allocations := [("A", [("v2", ⟨3, 7⟩)]), ("B", [("v1", ⟨2, 4⟩)])],
                 remaining_resources := [("A", (21, 505)), ("B", (30, 764))],
                 migrations := [], failed_allocations := ["v3"] } : AllocState) := by
            rw [placeVM_eq_commit hostsC [] _ ("v1", ⟨2, 4⟩) "B" bs1 heq3 (by decide)]
            rfl
          have hfin : (sortDesc vmsC).foldl (placeVM hostsC []) (initState hostsC) =
              ({ allocations := [("A", [("v2", ⟨3, 7⟩)]), ("B", [("v1", ⟨2, 4⟩)])],
                 remaining_resources := [("A", (21, 505)), ("B", (30, 764))],
                 migrations := [], failed_allocations := ["v3"] } : AllocState) := by
            rw [hsortv, List.foldl_cons, List.foldl_cons, List.foldl_cons, List.foldl_nil,
              e1, e2, e3]
          refine ⟨?_, ?_, ?_, ?_⟩
          · show "v3" ∈ ((sortDesc vmsC).foldl (placeVM hostsC [])
              (initState hostsC)).failed_allocations
            rw [hfin]; decide
          · show ∃ p ∈ ((sortDesc vmsC).foldl (placeVM hostsC [])
              (initState hostsC)).allocations.map (fun p => (p.1, p.2.map (fun q => q.1))),
              "v1" ∈ p.2
            rw [hfin]; decide
          · show ∃ p ∈ ((sortDesc vmsC).foldl (placeVM hostsC [])
              (initState hostsC)).allocations.map (fun p => (p.1, p.2.map (fun q => q.1))),
              "v2" ∈ p.2
            rw [hfin]; decide
          · show ((sortDesc vmsC).foldl (placeVM hostsC [])
              (initState hostsC)).migrations = []
            rw [hfin]
        · have e3 : placeVM hostsC []
              ({ allocations := [("A", [("v2", ⟨3, 7⟩)]), ("B", [])],
                 remaining_resources := [("A", (21, 505)), ("B", (32, 768))],
                 migrations := [], failed_allocations := ["v3"] } : AllocState) ("v1", ⟨2, 4⟩) =
              ({ allocations := [("A", [("v2", ⟨3, 7⟩), ("v1", ⟨2, 4⟩)]), ("B", [])],
                 remaining_resources := [("A", (19, 501)), ("B", (32, 768))],
                 migrations := [], failed_allocations := ["v3"] } : AllocState) := by
            rw [placeVM_eq_commit hostsC [] _ ("v1", ⟨2, 4⟩) "A" bs1 heq3 (by decide)]
            rfl
          have hfin : (sortDesc vmsC).foldl (placeVM hostsC []) (initState hostsC) =
              ({ allocations := [("A", [("v2", ⟨3, 7⟩), ("v1", ⟨2, 4⟩)]), ("B", [])],
                 remaining_resources := [("A", (19, 501)), ("B", (32, 768))],
                 migrations := [], failed_allocations := ["v3"] } : AllocState) := by
            rw [hsortv, List.foldl_cons, List.foldl_cons, List.foldl_cons, List.foldl_nil,
              e1, e2, e3]
          refine ⟨?_, ?_, ?_, ?_⟩
          · show "v3" ∈ ((sortDesc vmsC).foldl (placeVM hostsC [])
              (initState hostsC)).failed_allocations
            rw [hfin]; decide
          · show ∃ p ∈ ((sortDesc vmsC).foldl (placeVM hostsC [])
              (initState hostsC)).allocations.map (fun p => (p.1, p.2.map (fun q => q.1))),
              "v1" ∈ p.2
            rw [hfin]; decide
          · show ∃ p ∈ ((sortDesc vmsC).foldl (placeVM hostsC [])
              (initState hostsC)).allocations.map (fun p => (p.1, p.2.map (fun q => q.1))),
              "v2" ∈ p.2
            rw [hfin]; decide
          · show ((sortDesc vmsC).foldl (placeVM hostsC [])
              (initState hostsC)).migrations = []
            rw [hfin]

/-- C4: `allocate_vms` iterates hosts and VMs through `sortDesc`, which is a
permutation of the input, ordered by `cpu + ram` descending (the non-strict
relation `sortDescRel`), with equal-key pairs keeping their input order
(stability); and for each VM the host loop selects the first host in sorted
order whose score strictly exceeds every feasible score before it, a later
host being chosen only on strict improvement. -/
theorem spec_C4_sort_and_selection :
    (∀ l : List (String × Resources),
      (sortDesc l).Perm l ∧
      (sortDesc l).Pairwise sortDescRel ∧
      (∀ a b, resKey a = resKey b → List.Sublist [a, b] l →
        List.Sublist [a, b] (sortDesc l))) ∧
    (∀ (allocs : List (String × List (String × Resources)))
      (vmn : String) (res : Resources) (orig : Option String)
      (hostList : List (String × Resources)) (bh : String) (bs : ℝ),
      chooseHost allocs vmn res orig hostList none = some (bh, bs) →
      ∃ l1 cb l2, hostList = l1 ++ (bh, cb) :: l2 ∧ fits allocs res (bh, cb) ∧
        bs = scoreOf allocs vmn res orig (bh, cb) ∧
        (∀ q ∈ l1, fits allocs res q → scoreOf allocs vmn res orig q < bs) ∧
        (∀ q ∈ l2, fits allocs res q → scoreOf allocs vmn res orig q ≤ bs)) := by
  constructor
  · intro l
    refine ⟨List.perm_insertionSort sortDescRel l, List.sorted_insertionSort sortDescRel l, ?_⟩
    intro a b hk hs
    exact List.pair_sublist_insertionSort (le_of_eq hk.symm) hs
  · intro allocs vmn res orig hostList bh bs heq
    exact chooseHost_none_spec allocs vmn res orig hostList bh bs heq

theorem spec_C4_sort_and_selection_witness :
    (chooseHost [("A", [])] "v" ⟨1, 1⟩ none [("A", ⟨10, 10⟩)] none =
      some ("A", candidateScore "v" none "A" (lookupAlloc [("A", [])] "A").isEmpty
        (calculate_utilization ⟨10, 10⟩ (newAllocationOf [("A", [])] "A" ⟨1, 1⟩)))) ∧
    (∃ l1 cb l2, [(("A" : String), (⟨10, 10⟩ : Resources))] = l1 ++ ("A", cb) :: l2 ∧
      fits [("A", [])] ⟨1, 1⟩ ("A", cb) ∧
      candidateScore "v" none "A" (lookupAlloc [("A", [])] "A").isEmpty
        (calculate_utilization ⟨10, 10⟩ (newAllocationOf [("A", [])] "A" ⟨1, 1⟩)) =
        scoreOf [("A", [])] "v" ⟨1, 1⟩ none ("A", cb) ∧
      (∀ q ∈ l1, fits [("A", [])] ⟨1, 1⟩ q →
        scoreOf [("A", [])] "v" ⟨1, 1⟩ none q <
          candidateScore "v" none "A" (lookupAlloc [("A", [])] "A").isEmpty
            (calculate_utilization ⟨10, 10⟩ (newAllocationOf [("A", [])] "A" ⟨1, 1⟩))) ∧
      (∀ q ∈ l2, fits [("A", [])] ⟨1, 1⟩ q →
        scoreOf [("A", [])] "v" ⟨1, 1⟩ none q ≤
          candidateScore "v" none "A" (lookupAlloc [("A", [])] "A").isEmpty
            (calculate_utilization ⟨10, 10⟩ (newAllocationOf [("A", [])] "A" ⟨1, 1⟩)))) := by
  have hcap : capacityOK (⟨10, 10⟩ : Resources) (newAllocationOf [("A", [])] "A" ⟨1, 1⟩) := by
    decide
  have hle : ¬(100 < calculate_utilization ⟨10, 10⟩ (newAllocationOf [("A", [])] "A" ⟨1, 1⟩)) :=
    not_lt.mpr (utilization_le_100 _ _ hcap)
  have heq : chooseHost [("A", [])] "v" ⟨1, 1⟩ none [("A", ⟨10, 10⟩)] none =
      some ("A", candidateScore "v" none "A" (lookupAlloc [("A", [])] "A").isEmpty
        (calculate_utilization ⟨10, 10⟩ (newAllocationOf [("A", [])] "A" ⟨1, 1⟩))) := by
    simp only [chooseHost]
    rw [if_pos hcap, if_neg hle]
  exact ⟨heq, spec_C4_sort_and_selection.2 [("A", [])] "v" ⟨1, 1⟩ none
    [("A", ⟨10, 10⟩)] "A" _ heq⟩
